import Mathlib

/-!
# Verification of `fuzzyfiler.py`

A shallow embedding of the fuzzyfiler media-sorting tool and proofs about its
sorting engine, path scanner and entry point.

The program is interactive and effectful, so the embedding interprets each
function over explicit inputs and produces a trace of observable events:

* `sort_files` (the sorting engine) is interpreted over the gathered file list,
  directory list, the run options and a finite list of prompt responses (what
  `iterfzf` returns each time it is called: `none` models the user cancelling
  fzf, `some l` models a multi-selection returning the lines `l`).  The
  interpreter emits events for playback, progress output, prompts, copies,
  deletions and the terminal messages, and reports how the run ended.
* `gather_files` / `gather_directories` are interpreted over an inductive
  directory tree (`Entry`), mirroring the `os.listdir` recursion.
* `main` is interpreted over the two `os.path.isdir` answers and the two
  gathered candidate sets.
-/

namespace Fuzzyfiler

/-- `QUIT_CHOICE = 'Quit sorting'` from the source. -/
def QUIT_CHOICE : String := "Quit sorting"

/-- `EXT_WHITELIST` from the source (a Python `set`; only membership is used,
so a list models it). -/
def EXT_WHITELIST : List String :=
  [".bmp", ".gif", ".png", ".jpg", ".jpeg", ".mkv", ".webm", ".mp4"]

/-- Observable events of a `sort_files` run, in program order:
`play f` — the player's cursor reaches `f` and it starts looping playback;
`progress r t` — the `'Progress: r/t'` line;
`prompt pool` — an `iterfzf(cur_dirs, multi=True)` call displaying `pool`;
`copy src dst` — `shutil.copy(cur_file, cho)` plus its `'Copied'` line;
`quitMsg` — the `'Quitting manually.'` line;
`remove f` — `os.remove(cur_file)` plus its `'Removed'` line;
`doneMsg` — the `'Done sorting all files.'` line. -/
inductive Ev where
  | play (f : String)
  | progress (remaining total : Nat)
  | prompt (pool : List String)
  | copy (src dst : String)
  | quitMsg
  | remove (f : String)
  | doneMsg
deriving DecidableEq, Repr

/-- Result of the `for cho in choice:` copy loop.  `ok evs pool` is normal
completion with the events emitted and the surviving `cur_dirs`; `err evs pool`
models `cur_dirs.remove(cho)` raising `ValueError` because `cho` was not in
the list — the copies already performed (`evs`) happened before the raise and
`pool` is `cur_dirs` at that moment. -/
inductive CopyOut where
  | ok (evs : List Ev) (pool : List String)
  | err (evs : List Ev) (pool : List String)
deriving DecidableEq, Repr

/-- The body `for cho in choice: shutil.copy(cur_file, cho); print(...);
cur_dirs.remove(cho)` — the copy happens before the `remove`, and
`list.remove` drops the first occurrence or raises `ValueError`. -/
def applyChoices (src : String) : List String → List String → CopyOut
  | [], pool => .ok [] pool
  | cho :: rest, pool =>
    if cho ∈ pool then
      match applyChoices src rest (pool.erase cho) with
      | .ok evs pool' => .ok (Ev.copy src cho :: evs) pool'
      | .err evs pool' => .err (Ev.copy src cho :: evs) pool'
    else
      .err [Ev.copy src cho] pool

/-- How the inner `while cur_dirs and choice != None:` loop ended:
`cancel` — `iterfzf` returned `None` and the condition failed;
`poolEmpty` — `cur_dirs` became empty and the condition failed;
`brk` — the `if single: break`;
`quit` — `QUIT_CHOICE` was selected and `sort_files` returned;
`crash` — `ValueError` from `cur_dirs.remove`;
`blocked` — the supplied response list ran out while the loop still wanted
another prompt (the real program would block on the user). -/
inductive InnerRes where
  | cancel
  | poolEmpty
  | brk
  | quit
  | crash
  | blocked
deriving DecidableEq, Repr

/-- State after running the inner decision loop: events emitted, prompt
responses not consumed, how the loop ended, and the final `cur_dirs`. -/
structure InnerOut where
  evs : List Ev
  rest : List (Option (List String))
  res : InnerRes
  pool : List String
deriving DecidableEq, Repr

/-- The inner decision loop of `sort_files` for one current file `src`:

```
choice = True
while cur_dirs and choice != None:
    choice = iterfzf(cur_dirs, multi=True)
    if choice:
        if QUIT_CHOICE in choice: print(...); player.quit(); del player; return
        for cho in choice: shutil.copy(...); print(...); cur_dirs.remove(cho)
    if single: break
```

Interpreted against the list of responses `rs`; the `while` condition is
re-checked exactly where Python checks it (`choice` starts truthy, an empty
selection list is falsy but not `None`, so it neither copies nor exits). -/
def innerLoop (single : Bool) (src : String) : List String →
    List (Option (List String)) → InnerOut
  | pool, rs =>
    if pool = [] then ⟨[], rs, .poolEmpty, pool⟩
    else
      match rs with
      | [] => ⟨[], [], .blocked, pool⟩
      | r :: rs' =>
        match r with
        | none =>
          if single then ⟨[Ev.prompt pool], rs', .brk, pool⟩
          else ⟨[Ev.prompt pool], rs', .cancel, pool⟩
        | some l =>
          if l = [] then
            if single then ⟨[Ev.prompt pool], rs', .brk, pool⟩
            else
              let o := innerLoop single src pool rs'
              ⟨Ev.prompt pool :: o.evs, o.rest, o.res, o.pool⟩
          else if QUIT_CHOICE ∈ l then
            ⟨[Ev.prompt pool, Ev.quitMsg], rs', .quit, pool⟩
          else
            match applyChoices src l pool with
            | .err cevs poolErr => ⟨Ev.prompt pool :: cevs, rs', .crash, poolErr⟩
            | .ok cevs pool' =>
              if single then ⟨Ev.prompt pool :: cevs, rs', .brk, pool'⟩
              else
                let o := innerLoop single src pool' rs'
                ⟨Ev.prompt pool :: (cevs ++ o.evs), o.rest, o.res, o.pool⟩

/-- How a whole `sort_files` run ended: normal completion, the manual quit
`return`, an uncaught `ValueError`, or blocking on a prompt with no response
left in the supplied list. -/
inductive RunEnd where
  | finished
  | quitted
  | crashed
  | blocked
deriving DecidableEq, Repr

/-- A finished (or aborted) run: its event trace and how it ended. -/
structure RunOut where
  evs : List Ev
  outcome : RunEnd
deriving DecidableEq, Repr

/-- The engine `sort_files(flist, dlist, delete, single)`.  The mpv playlist
is primed with all of `flist` and `playlist_pos` starts at 0; each outer
iteration reads `cur_file = player.playlist[player.playlist_pos]['filename']`
and ends with `player.playlist_remove(); del flist[0]`, so the playlist and
`flist` are dequeued from the front in lockstep and the current file is the
head of `flist`.  `total` is `total_count = len(flist)` captured on entry;
the progress line prints `len(flist)` (current file included) over `total`.
`cur_dirs = list(dlist); cur_dirs.append(QUIT_CHOICE)` is rebuilt freshly for
every file. -/
def sort_files (delete single : Bool) (total : Nat) (dlist : List String) :
    List String → List (Option (List String)) → RunOut
  | [], _ => ⟨[Ev.doneMsg], .finished⟩
  | f :: fs, rs =>
    let o := innerLoop single f (dlist ++ [QUIT_CHOICE]) rs
    let hd := [Ev.play f, Ev.progress (fs.length + 1) total]
    match o.res with
    | .quit => ⟨hd ++ o.evs, .quitted⟩
    | .crash => ⟨hd ++ o.evs, .crashed⟩
    | .blocked => ⟨hd ++ o.evs, .blocked⟩
    | _ =>
      let devs := if delete then [Ev.remove f] else []
      let rest := sort_files delete single total dlist fs o.rest
      ⟨hd ++ o.evs ++ devs ++ rest.evs, rest.outcome⟩

/-- A directory tree entry as `os.listdir` + `os.path.isdir`/`isfile`
classify it: a plain file or a subdirectory with its own entries.  Names are
single path components (no separator). -/
inductive Entry where
  | file (name : String)
  | dir (name : String) (children : List Entry)

/-- `os.path.join(current, name)` for a component `name` without separators:
concatenation with `/`. -/
def pathJoin (d name : String) : String := d ++ "/" ++ name

/-- The extension component of `os.path.splitext` applied to a path ending in
the component `name` (the last separator of the joined path sits right before
`name`, so the split depends only on `name`): the suffix from the last `.`,
unless every character before that dot is itself a dot (a leading-dots name
such as `.png` or `..png` has extension `''`). -/
def splitextExt (name : String) : String :=
  let cs := name.toList
  if (cs.dropWhile (fun c => c = '.')).contains '.' then
    String.mk (extFrom cs)
  else ""
where
  /-- The suffix of the character list starting at its last `.`; `[]` if
  there is no dot. -/
  extFrom : List Char → List Char
    | [] => []
    | c :: rest =>
      let e := extFrom rest
      if e = [] then (if c = '.' then c :: rest else []) else e

/-- `gather_files(current, recursive)`:

```
for sub in os.listdir(current):
    sub = os.path.join(current, sub)
    if recursive and os.path.isdir(sub): ret.update(gather_files(sub, recursive))
    if os.path.isfile(sub):
        _, ext = os.path.splitext(sub)
        if ext.lower() in EXT_WHITELIST: ret.add(sub)
```

The Python result is a set; the list produced here represents it, and all
theorems about it are membership statements. -/
def gather_files (recursive : Bool) : String → List Entry → List String
  | _, [] => []
  | current, Entry.file name :: rest =>
    (if (splitextExt name).toLower ∈ EXT_WHITELIST
      then [pathJoin current name] else [])
      ++ gather_files recursive current rest
  | current, Entry.dir name children :: rest =>
    (if recursive then gather_files recursive (pathJoin current name) children
      else [])
      ++ gather_files recursive current rest

/-- `gather_directories(current)`:

```
for sub in os.listdir(current):
    sub = os.path.join(current, sub)
    if os.path.isdir(sub):
        ret.update(gather_directories(sub)); ret.add(sub)
```

It takes no recursion flag; it always recurses. -/
def gather_directories : String → List Entry → List String
  | _, [] => []
  | current, Entry.file _ :: rest => gather_directories current rest
  | current, Entry.dir name children :: rest =>
    (gather_directories (pathJoin current name) children ++ [pathJoin current name])
      ++ gather_directories current rest

/-- Observable control-flow events of `main`. -/
inductive MainEv where
  | sourceNotDirMsg
  | targetNotDirMsg
  | gatherFilesEntered
  | gatherDirsEntered
  | sortEntered
  | emptyMsg
deriving DecidableEq, Repr

/-- `main(source, target, **options)` control flow.  `isdirS`/`isdirT` are the
`os.path.isdir` answers; `flist`/`dlist` are what the scanners would return on
a directory root.  The two `isdir` checks only `print`; there is no `return`
after them, so `gather_files(source)` is always entered next.  `os.listdir` on
a non-directory raises, so when `isdirS` (resp. `isdirT`) is false the run
dies inside `gather_files` (resp. `gather_directories`) with an uncaught
exception: the Boolean result is `false` for "terminated by an exception". -/
def mainRun (isdirS isdirT : Bool) (flist dlist : List String) :
    List MainEv × Bool :=
  let pre := (if isdirS then [] else [MainEv.sourceNotDirMsg])
    ++ (if isdirT then [] else [MainEv.targetNotDirMsg])
  if isdirS = false then (pre ++ [MainEv.gatherFilesEntered], false)
  else if isdirT = false then
    (pre ++ [MainEv.gatherFilesEntered, MainEv.gatherDirsEntered], false)
  else
    (pre ++ [MainEv.gatherFilesEntered, MainEv.gatherDirsEntered]
      ++ (if flist ≠ [] ∧ dlist ≠ [] then [MainEv.sortEntered]
          else [MainEv.emptyMsg]), true)

/-- The events a `CopyOut` carries, for either outcome. -/
def CopyOut.events : CopyOut → List Ev
  | .ok evs _ => evs
  | .err evs _ => evs

/-- The `cur_dirs` list a `CopyOut` carries, for either outcome. -/
def CopyOut.poolOut : CopyOut → List String
  | .ok _ p => p
  | .err _ p => p

/-- The destinations of the copy events in a trace, in order. -/
def copyTargets (evs : List Ev) : List String :=
  evs.filterMap fun ev =>
    match ev with
    | Ev.copy _ d => some d
    | _ => none

/-- How many prompt events (`iterfzf` calls) a trace contains. -/
def countPrompts (evs : List Ev) : Nat :=
  evs.countP fun ev =>
    match ev with
    | Ev.prompt _ => true
    | _ => false

/-- `p` is the path of a strict descendant directory of `current` in the tree
`entries`, at any depth — the set `scan_directories` is specified to return. -/
inductive IsDescDir : String → List Entry → String → Prop where
  | here (current : String) (entries : List Entry) (name : String)
      (children : List Entry) :
      Entry.dir name children ∈ entries →
      IsDescDir current entries (pathJoin current name)
  | deeper (current : String) (entries : List Entry) (name : String)
      (children : List Entry) (p : String) :
      Entry.dir name children ∈ entries →
      IsDescDir (pathJoin current name) children p →
      IsDescDir current entries p

/-! ## Unfolding and helper lemmas -/

lemma applyChoices_cons (src cho : String) (rest pool : List String) :
    applyChoices src (cho :: rest) pool =
      if cho ∈ pool then
        match applyChoices src rest (pool.erase cho) with
        | .ok evs pool' => .ok (Ev.copy src cho :: evs) pool'
        | .err evs pool' => .err (Ev.copy src cho :: evs) pool'
      else .err [Ev.copy src cho] pool := by
  rw [applyChoices]

lemma innerLoop_nil (single : Bool) (src : String) (pool : List String) :
    innerLoop single src pool [] =
      if pool = [] then ⟨[], [], .poolEmpty, pool⟩
      else ⟨[], [], .blocked, pool⟩ := by
  rw [innerLoop]

lemma innerLoop_cons_none (single : Bool) (src : String) (pool : List String)
    (rs' : List (Option (List String))) :
    innerLoop single src pool (none :: rs') =
      if pool = [] then ⟨[], none :: rs', .poolEmpty, pool⟩
      else if single then ⟨[Ev.prompt pool], rs', .brk, pool⟩
      else ⟨[Ev.prompt pool], rs', .cancel, pool⟩ := by
  rw [innerLoop]

lemma innerLoop_cons_some (single : Bool) (src : String) (pool l : List String)
    (rs' : List (Option (List String))) :
    innerLoop single src pool (some l :: rs') =
      if pool = [] then ⟨[], some l :: rs', .poolEmpty, pool⟩
      else if l = [] then
        (if single then ⟨[Ev.prompt pool], rs', .brk, pool⟩
         else
           let o := innerLoop single src pool rs'
           ⟨Ev.prompt pool :: o.evs, o.rest, o.res, o.pool⟩)
      else if QUIT_CHOICE ∈ l then
        ⟨[Ev.prompt pool, Ev.quitMsg], rs', .quit, pool⟩
      else
        match applyChoices src l pool with
        | .err cevs poolErr => ⟨Ev.prompt pool :: cevs, rs', .crash, poolErr⟩
        | .ok cevs pool' =>
          if single then ⟨Ev.prompt pool :: cevs, rs', .brk, pool'⟩
          else
            let o := innerLoop single src pool' rs'
            ⟨Ev.prompt pool :: (cevs ++ o.evs), o.rest, o.res, o.pool⟩ := by
  rw [innerLoop]

lemma innerLoop_pool_nil (single : Bool) (src : String)
    (rs : List (Option (List String))) :
    innerLoop single src [] rs = ⟨[], rs, .poolEmpty, []⟩ := by
  rw [innerLoop.eq_def]
  simp

lemma innerLoop_blocked (single : Bool) (src : String) {pool : List String}
    (hp : pool ≠ []) :
    innerLoop single src pool [] = ⟨[], [], .blocked, pool⟩ := by
  rw [innerLoop_nil, if_neg hp]

lemma innerLoop_none_single (src : String) {pool : List String} (hp : pool ≠ [])
    (rs' : List (Option (List String))) :
    innerLoop true src pool (none :: rs') =
      ⟨[Ev.prompt pool], rs', .brk, pool⟩ := by
  rw [innerLoop_cons_none, if_neg hp]
  rfl

lemma innerLoop_none_multi (src : String) {pool : List String} (hp : pool ≠ [])
    (rs' : List (Option (List String))) :
    innerLoop false src pool (none :: rs') =
      ⟨[Ev.prompt pool], rs', .cancel, pool⟩ := by
  rw [innerLoop_cons_none, if_neg hp]
  rfl

lemma innerLoop_empty_single (src : String) {pool : List String}
    (hp : pool ≠ []) (rs' : List (Option (List String))) :
    innerLoop true src pool (some [] :: rs') =
      ⟨[Ev.prompt pool], rs', .brk, pool⟩ := by
  rw [innerLoop_cons_some, if_neg hp]
  rfl

lemma innerLoop_empty_multi (src : String) {pool : List String}
    (hp : pool ≠ []) (rs' : List (Option (List String))) :
    innerLoop false src pool (some [] :: rs') =
      ⟨Ev.prompt pool :: (innerLoop false src pool rs').evs,
        (innerLoop false src pool rs').rest,
        (innerLoop false src pool rs').res,
        (innerLoop false src pool rs').pool⟩ := by
  rw [innerLoop_cons_some, if_neg hp]
  rfl

lemma innerLoop_quit (single : Bool) (src : String) {pool l : List String}
    (hp : pool ≠ []) (hl : l ≠ []) (hq : QUIT_CHOICE ∈ l)
    (rs' : List (Option (List String))) :
    innerLoop single src pool (some l :: rs') =
      ⟨[Ev.prompt pool, Ev.quitMsg], rs', .quit, pool⟩ := by
  rw [innerLoop_cons_some, if_neg hp, if_neg hl, if_pos hq]

lemma innerLoop_err (single : Bool) (src : String) {pool l : List String}
    {cevs : List Ev} {poolErr : List String}
    (hp : pool ≠ []) (hl : l ≠ []) (hq : QUIT_CHOICE ∉ l)
    (heq : applyChoices src l pool = .err cevs poolErr)
    (rs' : List (Option (List String))) :
    innerLoop single src pool (some l :: rs') =
      ⟨Ev.prompt pool :: cevs, rs', .crash, poolErr⟩ := by
  rw [innerLoop_cons_some, if_neg hp, if_neg hl, if_neg hq, heq]

lemma innerLoop_ok_single (src : String) {pool l : List String}
    {cevs : List Ev} {pool' : List String}
    (hp : pool ≠ []) (hl : l ≠ []) (hq : QUIT_CHOICE ∉ l)
    (heq : applyChoices src l pool = .ok cevs pool')
    (rs' : List (Option (List String))) :
    innerLoop true src pool (some l :: rs') =
      ⟨Ev.prompt pool :: cevs, rs', .brk, pool'⟩ := by
  rw [innerLoop_cons_some, if_neg hp, if_neg hl, if_neg hq, heq]
  rfl

lemma innerLoop_ok_multi (src : String) {pool l : List String}
    {cevs : List Ev} {pool' : List String}
    (hp : pool ≠ []) (hl : l ≠ []) (hq : QUIT_CHOICE ∉ l)
    (heq : applyChoices src l pool = .ok cevs pool')
    (rs' : List (Option (List String))) :
    innerLoop false src pool (some l :: rs') =
      ⟨Ev.prompt pool :: (cevs ++ (innerLoop false src pool' rs').evs),
        (innerLoop false src pool' rs').rest,
        (innerLoop false src pool' rs').res,
        (innerLoop false src pool' rs').pool⟩ := by
  rw [innerLoop_cons_some, if_neg hp, if_neg hl, if_neg hq, heq]
  rfl

lemma sort_files_nil (delete single : Bool) (total : Nat) (dlist : List String)
    (rs : List (Option (List String))) :
    sort_files delete single total dlist [] rs = ⟨[Ev.doneMsg], .finished⟩ := by
  rw [sort_files]

lemma sort_files_cons (delete single : Bool) (total : Nat)
    (dlist : List String) (f : String) (fs : List String)
    (rs : List (Option (List String))) :
    sort_files delete single total dlist (f :: fs) rs =
      let o := innerLoop single f (dlist ++ [QUIT_CHOICE]) rs
      let hd := [Ev.play f, Ev.progress (fs.length + 1) total]
      match o.res with
      | .quit => ⟨hd ++ o.evs, .quitted⟩
      | .crash => ⟨hd ++ o.evs, .crashed⟩
      | .blocked => ⟨hd ++ o.evs, .blocked⟩
      | _ =>
        let devs := if delete then [Ev.remove f] else []
        let rest := sort_files delete single total dlist fs o.rest
        ⟨hd ++ o.evs ++ devs ++ rest.evs, rest.outcome⟩ := by
  rw [sort_files]

lemma applyChoices_events_copy (src : String) :
    ∀ (l pool : List String),
      ∀ ev ∈ (applyChoices src l pool).events, ∃ d, ev = Ev.copy src d := by
  intro l
  induction l with
  | nil =>
    intro pool ev hev
    simp [applyChoices, CopyOut.events] at hev
  | cons cho rest ih =>
    intro pool ev hev
    rw [applyChoices_cons] at hev
    by_cases hc : cho ∈ pool
    · rw [if_pos hc] at hev
      rcases h : applyChoices src rest (pool.erase cho) with ⟨evs, pool'⟩ | ⟨evs, pool'⟩ <;>
        rw [h] at hev <;>
        simp only [CopyOut.events, List.mem_cons] at hev <;>
        rcases hev with rfl | hev
      · exact ⟨cho, rfl⟩
      · exact ih (pool.erase cho) ev (by rw [h]; exact hev)
      · exact ⟨cho, rfl⟩
      · exact ih (pool.erase cho) ev (by rw [h]; exact hev)
    · rw [if_neg hc] at hev
      simp only [CopyOut.events, List.mem_singleton] at hev
      exact ⟨cho, hev⟩

lemma applyChoices_quit_mem (src : String) :
    ∀ (l pool : List String), QUIT_CHOICE ∉ l → QUIT_CHOICE ∈ pool →
      QUIT_CHOICE ∈ (applyChoices src l pool).poolOut := by
  intro l
  induction l with
  | nil =>
    intro pool _ hq
    simpa [applyChoices, CopyOut.poolOut] using hq
  | cons cho rest ih =>
    intro pool hnl hq
    have hne : QUIT_CHOICE ≠ cho := fun h => hnl (h ▸ List.mem_cons_self _ _)
    have hq' : QUIT_CHOICE ∈ pool.erase cho := (List.mem_erase_of_ne hne).mpr hq
    rw [applyChoices_cons]
    by_cases hc : cho ∈ pool
    · rw [if_pos hc]
      have := ih (pool.erase cho) (fun h => hnl (List.mem_cons_of_mem _ h)) hq'
      rcases h : applyChoices src rest (pool.erase cho) with ⟨evs, pool'⟩ | ⟨evs, pool'⟩ <;>
        rw [h] at this <;> simpa [CopyOut.poolOut] using this
    · rw [if_neg hc]
      simpa [CopyOut.poolOut] using hq

lemma copyTargets_nil : copyTargets [] = [] := rfl

lemma copyTargets_cons (ev : Ev) (evs : List Ev) :
    copyTargets (ev :: evs) =
      (match ev with
        | Ev.copy _ d => [d]
        | _ => []) ++ copyTargets evs := by
  cases ev <;> simp [copyTargets]

lemma copyTargets_append (evs evs' : List Ev) :
    copyTargets (evs ++ evs') = copyTargets evs ++ copyTargets evs' := by
  simp [copyTargets]

/-- When the copy loop completes without raising, the copies performed are
exactly the selected labels, the selection was duplicate-free and drawn from
the pool, and the surviving pool is the pool minus the selection. -/
lemma applyChoices_ok_spec (src : String) :
    ∀ (l pool : List String) (evs : List Ev) (pool' : List String),
      pool.Nodup → applyChoices src l pool = .ok evs pool' →
      copyTargets evs = l ∧ l.Nodup ∧ (∀ x ∈ l, x ∈ pool) ∧ pool'.Nodup ∧
        (∀ d, d ∈ pool' ↔ d ∈ pool ∧ d ∉ l) := by
  intro l
  induction l with
  | nil =>
    intro pool evs pool' hnd h
    simp only [applyChoices, CopyOut.ok.injEq] at h
    obtain ⟨rfl, rfl⟩ := h
    simp [copyTargets_nil, hnd]
  | cons cho rest ih =>
    intro pool evs pool' hnd h
    rw [applyChoices_cons] at h
    by_cases hc : cho ∈ pool
    · rw [if_pos hc] at h
      rcases heq : applyChoices src rest (pool.erase cho) with ⟨evs₀, pool₀⟩ | ⟨evs₀, pool₀⟩ <;>
        rw [heq] at h
      · simp only [CopyOut.ok.injEq] at h
        obtain ⟨rfl, rfl⟩ := h
        obtain ⟨ht, hrnd, hsub, hpnd, hiff⟩ :=
          ih (pool.erase cho) evs₀ pool₀ (hnd.erase cho) heq
        have hchonotin : cho ∉ rest := by
          intro hmem
          have := hsub cho hmem
          exact ((hnd.mem_erase_iff).mp this).1 rfl
        refine ⟨?_, ?_, ?_, hpnd, ?_⟩
        · rw [copyTargets_cons]; simpa using ht
        · exact List.nodup_cons.mpr ⟨hchonotin, hrnd⟩
        · intro x hx
          rcases List.mem_cons.mp hx with rfl | hx
          · exact hc
          · exact List.mem_of_mem_erase (hsub x hx)
        · intro d
          rw [hiff d, hnd.mem_erase_iff]
          constructor
          · rintro ⟨⟨hdne, hdp⟩, hdr⟩
            exact ⟨hdp, by simp [List.mem_cons, hdne, hdr]⟩
          · rintro ⟨hdp, hdnl⟩
            simp only [List.mem_cons, not_or] at hdnl
            exact ⟨⟨hdnl.1, hdp⟩, hdnl.2⟩
      · exact absurd h (by simp)
    · rw [if_neg hc] at h
      exact absurd h (by simp)

/-- A duplicate-free selection drawn from the pool never makes
`cur_dirs.remove` raise. -/
lemma applyChoices_ok_of_valid (src : String) :
    ∀ (l pool : List String), l.Nodup → (∀ x ∈ l, x ∈ pool) →
      ∃ evs pool', applyChoices src l pool = .ok evs pool' := by
  intro l
  induction l with
  | nil => intro pool _ _; exact ⟨[], pool, rfl⟩
  | cons cho rest ih =>
    intro pool hnd hsub
    have hc : cho ∈ pool := hsub cho (List.mem_cons_self _ _)
    have hsub' : ∀ x ∈ rest, x ∈ pool.erase cho := by
      intro x hx
      have hne : x ≠ cho := by
        rintro rfl
        exact (List.nodup_cons.mp hnd).1 hx
      exact (List.mem_erase_of_ne hne).mpr (hsub x (List.mem_cons_of_mem _ hx))
    obtain ⟨evs₀, pool₀, heq⟩ :=
      ih (pool.erase cho) (List.nodup_cons.mp hnd).2 hsub'
    refine ⟨Ev.copy src cho :: evs₀, pool₀, ?_⟩
    rw [applyChoices_cons, if_pos hc, heq]

/-- Every event the inner decision loop emits is a prompt, the quit message,
or a copy of the current file: in particular it never plays, removes or
reports progress on any file. -/
lemma innerLoop_events_shape (single : Bool) (src : String) :
    ∀ (pool : List String) (rs : List (Option (List String))),
      ∀ ev ∈ (innerLoop single src pool rs).evs,
        (∃ q, ev = Ev.prompt q) ∨ ev = Ev.quitMsg ∨ ∃ d, ev = Ev.copy src d := by
  intro pool rs
  induction pool, rs using innerLoop.induct single src with
  | case1 rs => simp [innerLoop_pool_nil]
  | case2 pool hp => simp [innerLoop_blocked single src hp]
  | case3 pool hp rs' hs =>
    subst hs
    intro ev hev
    rw [innerLoop_none_single src hp] at hev
    simp only [List.mem_singleton] at hev
    exact Or.inl ⟨pool, hev⟩
  | case4 pool hp rs' hs =>
    rw [Bool.not_eq_true] at hs
    subst hs
    intro ev hev
    rw [innerLoop_none_multi src hp] at hev
    simp only [List.mem_singleton] at hev
    exact Or.inl ⟨pool, hev⟩
  | case5 pool hp rs' hs =>
    subst hs
    intro ev hev
    rw [innerLoop_empty_single src hp] at hev
    simp only [List.mem_singleton] at hev
    exact Or.inl ⟨pool, hev⟩
  | case6 pool hp rs' hs ih =>
    rw [Bool.not_eq_true] at hs
    subst hs
    intro ev hev
    rw [innerLoop_empty_multi src hp] at hev
    simp only [List.mem_cons] at hev
    rcases hev with rfl | hev
    · exact Or.inl ⟨pool, rfl⟩
    · exact ih ev hev
  | case7 pool hp rs' l hl hq =>
    intro ev hev
    rw [innerLoop_quit single src hp hl hq] at hev
    simp only [List.mem_cons, List.not_mem_nil, or_false] at hev
    rcases hev with rfl | rfl
    · exact Or.inl ⟨pool, rfl⟩
    · exact Or.inr (Or.inl rfl)
  | case8 pool hp rs' l hl hq cevs poolErr heq =>
    intro ev hev
    rw [innerLoop_err single src hp hl hq heq] at hev
    simp only [List.mem_cons] at hev
    rcases hev with rfl | hev
    · exact Or.inl ⟨pool, rfl⟩
    · exact Or.inr (Or.inr
        (applyChoices_events_copy src l pool ev (by rw [heq]; exact hev)))
  | case9 pool hp rs' l hl hq cevs pool' heq hs =>
    subst hs
    intro ev hev
    rw [innerLoop_ok_single src hp hl hq heq] at hev
    simp only [List.mem_cons] at hev
    rcases hev with rfl | hev
    · exact Or.inl ⟨pool, rfl⟩
    · exact Or.inr (Or.inr
        (applyChoices_events_copy src l pool ev (by rw [heq]; exact hev)))
  | case10 pool hp rs' l hl hq cevs pool' heq hs ih =>
    rw [Bool.not_eq_true] at hs
    subst hs
    intro ev hev
    rw [innerLoop_ok_multi src hp hl hq heq] at hev
    simp only [List.mem_cons, List.mem_append] at hev
    rcases hev with rfl | hev | hev
    · exact Or.inl ⟨pool, rfl⟩
    · exact Or.inr (Or.inr
        (applyChoices_events_copy src l pool ev (by rw [heq]; exact hev)))
    · exact ih ev hev

/-- The quit sentinel is never removed from the candidate pool, and the
pool-empty exit of the inner `while` is unreachable from a pool containing
it. -/
lemma innerLoop_quit_mem (single : Bool) (src : String) :
    ∀ (pool : List String) (rs : List (Option (List String))),
      QUIT_CHOICE ∈ pool →
      QUIT_CHOICE ∈ (innerLoop single src pool rs).pool ∧
        (innerLoop single src pool rs).res ≠ .poolEmpty := by
  intro pool rs
  induction pool, rs using innerLoop.induct single src with
  | case1 rs => simp [innerLoop_pool_nil]
  | case2 pool hp =>
    intro hq
    simp [innerLoop_blocked single src hp, hq]
  | case3 pool hp rs' hs =>
    subst hs
    intro hq
    simp [innerLoop_none_single src hp, hq]
  | case4 pool hp rs' hs =>
    rw [Bool.not_eq_true] at hs
    subst hs
    intro hq
    simp [innerLoop_none_multi src hp, hq]
  | case5 pool hp rs' hs =>
    subst hs
    intro hq
    simp [innerLoop_empty_single src hp, hq]
  | case6 pool hp rs' hs ih =>
    rw [Bool.not_eq_true] at hs
    subst hs
    intro hq
    simpa [innerLoop_empty_multi src hp] using ih hq
  | case7 pool hp rs' l hl hq' =>
    intro hq
    simp [innerLoop_quit single src hp hl hq', hq]
  | case8 pool hp rs' l hl hq' cevs poolErr heq =>
    intro hq
    have hmem := applyChoices_quit_mem src l pool hq' hq
    rw [heq] at hmem
    simp only [CopyOut.poolOut] at hmem
    simp [innerLoop_err single src hp hl hq' heq, hmem]
  | case9 pool hp rs' l hl hq' cevs pool' heq hs =>
    subst hs
    intro hq
    have hmem := applyChoices_quit_mem src l pool hq' hq
    rw [heq] at hmem
    simp only [CopyOut.poolOut] at hmem
    simp [innerLoop_ok_single src hp hl hq' heq, hmem]
  | case10 pool hp rs' l hl hq' cevs pool' heq hs ih =>
    rw [Bool.not_eq_true] at hs
    subst hs
    intro hq
    have hmem : QUIT_CHOICE ∈ pool' := by
      have := applyChoices_quit_mem src l pool hq' hq
      rw [heq] at this
      simpa [CopyOut.poolOut] using this
    simpa [innerLoop_ok_multi src hp hl hq' heq] using ih hmem

/-- When the inner decision loop does not crash from a starting pool without
duplicates: the labels copied to are pairwise distinct, each came from the
starting pool, and the surviving pool is exactly the starting pool minus the
copied labels (so a consumed label is gone and never re-admitted). -/
lemma innerLoop_copy_spec (single : Bool) (src : String) :
    ∀ (pool : List String) (rs : List (Option (List String))),
      pool.Nodup → (innerLoop single src pool rs).res ≠ .crash →
      (copyTargets (innerLoop single src pool rs).evs).Nodup ∧
        (∀ d ∈ copyTargets (innerLoop single src pool rs).evs, d ∈ pool) ∧
        (innerLoop single src pool rs).pool.Nodup ∧
        (∀ d, d ∈ (innerLoop single src pool rs).pool ↔
          d ∈ pool ∧ d ∉ copyTargets (innerLoop single src pool rs).evs) := by
  intro pool rs
  induction pool, rs using innerLoop.induct single src with
  | case1 rs => simp [innerLoop_pool_nil, copyTargets_nil]
  | case2 pool hp =>
    intro hnd _
    simp [innerLoop_blocked single src hp, copyTargets_nil, hnd]
  | case3 pool hp rs' hs =>
    subst hs
    intro hnd _
    simp [innerLoop_none_single src hp, copyTargets, hnd]
  | case4 pool hp rs' hs =>
    rw [Bool.not_eq_true] at hs
    subst hs
    intro hnd _
    simp [innerLoop_none_multi src hp, copyTargets, hnd]
  | case5 pool hp rs' hs =>
    subst hs
    intro hnd _
    simp [innerLoop_empty_single src hp, copyTargets, hnd]
  | case6 pool hp rs' hs ih =>
    rw [Bool.not_eq_true] at hs
    subst hs
    intro hnd hnc
    rw [innerLoop_empty_multi src hp] at hnc ⊢
    have := ih hnd hnc
    simpa [copyTargets_cons] using this
  | case7 pool hp rs' l hl hq =>
    intro hnd _
    simp [innerLoop_quit single src hp hl hq, copyTargets, hnd]
  | case8 pool hp rs' l hl hq cevs poolErr heq =>
    intro _ hnc
    exact absurd (by rw [innerLoop_err single src hp hl hq heq]) hnc
  | case9 pool hp rs' l hl hq cevs pool' heq hs =>
    subst hs
    intro hnd _
    obtain ⟨ht, hlnd, hlsub, hpnd, hiff⟩ :=
      applyChoices_ok_spec src l pool cevs pool' hnd heq
    rw [innerLoop_ok_single src hp hl hq heq]
    refine ⟨?_, ?_, hpnd, ?_⟩
    · simpa [copyTargets_cons, ht] using hlnd
    · intro d hd
      rw [copyTargets_cons] at hd
      simp only [List.nil_append, ht] at hd
      exact hlsub d hd
    · intro d
      rw [copyTargets_cons]
      simp only [List.nil_append, ht]
      exact hiff d
  | case10 pool hp rs' l hl hq cevs pool' heq hs ih =>
    rw [Bool.not_eq_true] at hs
    subst hs
    intro hnd hnc
    obtain ⟨ht, hlnd, hlsub, hpnd, hiff⟩ :=
      applyChoices_ok_spec src l pool cevs pool' hnd heq
    rw [innerLoop_ok_multi src hp hl hq heq] at hnc ⊢
    obtain ⟨rnd, rsub, rpnd, riff⟩ := ih hpnd hnc
    have htail :
        copyTargets (Ev.prompt pool ::
            (cevs ++ (innerLoop false src pool' rs').evs)) =
          l ++ copyTargets (innerLoop false src pool' rs').evs := by
      rw [copyTargets_cons]
      simp [copyTargets_append, ht]
    rw [htail]
    refine ⟨?_, ?_, rpnd, ?_⟩
    · rw [List.nodup_append]
      refine ⟨hlnd, rnd, ?_⟩
      intro x hxl hxr
      have hxp : x ∈ pool' := rsub x hxr
      exact ((hiff x).mp hxp).2 hxl
    · intro d hd
      rcases List.mem_append.mp hd with hd | hd
      · exact hlsub d hd
      · exact ((hiff d).mp (rsub d hd)).1
    · intro d
      rw [riff d, hiff d]
      constructor
      · rintro ⟨⟨hdp, hdl⟩, hdr⟩
        exact ⟨hdp, by simp [List.mem_append, hdl, hdr]⟩
      · rintro ⟨hdp, hdlr⟩
        simp only [List.mem_append, not_or] at hdlr
        exact ⟨⟨hdp, hdlr.1⟩, hdlr.2⟩

lemma innerLoop_no_remove (single : Bool) (src : String) (pool : List String)
    (rs : List (Option (List String))) (g : String) :
    Ev.remove g ∉ (innerLoop single src pool rs).evs := by
  intro hmem
  rcases innerLoop_events_shape single src pool rs (Ev.remove g) hmem with
    ⟨q, hq⟩ | hq | ⟨d, hd⟩ <;> simp_all

lemma innerLoop_no_play (single : Bool) (src : String) (pool : List String)
    (rs : List (Option (List String))) (g : String) :
    Ev.play g ∉ (innerLoop single src pool rs).evs := by
  intro hmem
  rcases innerLoop_events_shape single src pool rs (Ev.play g) hmem with
    ⟨q, hq⟩ | hq | ⟨d, hd⟩ <;> simp_all

lemma innerLoop_copy_src (single : Bool) (src : String) (pool : List String)
    (rs : List (Option (List String))) (g d : String) :
    Ev.copy g d ∈ (innerLoop single src pool rs).evs → g = src := by
  intro hmem
  rcases innerLoop_events_shape single src pool rs (Ev.copy g d) hmem with
    ⟨q, hq⟩ | hq | ⟨d', hd⟩ <;> simp_all

lemma sort_files_quit (delete single : Bool) (total : Nat)
    (dlist : List String) (f : String) (fs : List String)
    (rs : List (Option (List String)))
    (hq : (innerLoop single f (dlist ++ [QUIT_CHOICE]) rs).res = .quit) :
    sort_files delete single total dlist (f :: fs) rs =
      ⟨[Ev.play f, Ev.progress (fs.length + 1) total]
          ++ (innerLoop single f (dlist ++ [QUIT_CHOICE]) rs).evs,
        .quitted⟩ := by
  rw [sort_files_cons]
  simp only [hq]

lemma sort_files_advance (delete single : Bool) (total : Nat)
    (dlist : List String) (f : String) (fs : List String)
    (rs : List (Option (List String)))
    (h : (innerLoop single f (dlist ++ [QUIT_CHOICE]) rs).res = .cancel ∨
      (innerLoop single f (dlist ++ [QUIT_CHOICE]) rs).res = .brk ∨
      (innerLoop single f (dlist ++ [QUIT_CHOICE]) rs).res = .poolEmpty) :
    sort_files delete single total dlist (f :: fs) rs =
      ⟨[Ev.play f, Ev.progress (fs.length + 1) total]
          ++ (innerLoop single f (dlist ++ [QUIT_CHOICE]) rs).evs
          ++ (if delete then [Ev.remove f] else [])
          ++ (sort_files delete single total dlist fs
              (innerLoop single f (dlist ++ [QUIT_CHOICE]) rs).rest).evs,
        (sort_files delete single total dlist fs
          (innerLoop single f (dlist ++ [QUIT_CHOICE]) rs).rest).outcome⟩ := by
  rw [sort_files_cons]
  rcases h with h | h | h <;> simp only [h]

/-- Any event of a run on `f :: fs` is the play or progress event of `f`, an
inner-loop event for `f`, the deletion of `f`, or an event of the tail run. -/
lemma sort_files_cons_evs_sub (delete single : Bool) (total : Nat)
    (dlist : List String) (f : String) (fs : List String)
    (rs : List (Option (List String))) :
    ∀ ev ∈ (sort_files delete single total dlist (f :: fs) rs).evs,
      ev = Ev.play f ∨ ev = Ev.progress (fs.length + 1) total ∨
      ev ∈ (innerLoop single f (dlist ++ [QUIT_CHOICE]) rs).evs ∨
      (delete = true ∧ ev = Ev.remove f) ∨
      ev ∈ (sort_files delete single total dlist fs
        (innerLoop single f (dlist ++ [QUIT_CHOICE]) rs).rest).evs := by
  intro ev hmem
  rw [sort_files_cons] at hmem
  cases hres : (innerLoop single f (dlist ++ [QUIT_CHOICE]) rs).res <;>
    simp only [hres] at hmem <;>
    cases delete <;>
    simp only [List.mem_append, List.mem_cons, List.not_mem_nil, false_or,
      or_false, if_true, if_false, Bool.false_eq_true, Bool.true_eq_false,
      ite_true, ite_false, List.mem_singleton] at hmem <;>
    tauto

/-- With `delete=False` the engine never executes `os.remove`. -/
lemma sort_files_no_remove (single : Bool) (total : Nat)
    (dlist : List String) :
    ∀ (fs : List String) (rs : List (Option (List String))) (g : String),
      Ev.remove g ∉ (sort_files false single total dlist fs rs).evs := by
  intro fs
  induction fs with
  | nil =>
    intro rs g
    simp [sort_files_nil]
  | cons f fs ih =>
    intro rs g hmem
    rcases sort_files_cons_evs_sub false single total dlist f fs rs
        (Ev.remove g) hmem with h | h | h | ⟨hfalse, _⟩ | h
    · simp at h
    · simp at h
    · exact innerLoop_no_remove single f _ rs g h
    · simp at hfalse
    · exact ih _ g h

lemma count_copy_le_copyTargets (src d : String) :
    ∀ evs : List Ev, evs.count (Ev.copy src d) ≤ (copyTargets evs).count d := by
  intro evs
  induction evs with
  | nil => simp [copyTargets_nil]
  | cons ev evs ih =>
    rw [copyTargets_cons]
    match ev with
    | Ev.play f => simpa [List.count_cons] using ih
    | Ev.progress r t => simpa [List.count_cons] using ih
    | Ev.prompt q => simpa [List.count_cons] using ih
    | Ev.quitMsg => simpa [List.count_cons] using ih
    | Ev.remove f => simpa [List.count_cons] using ih
    | Ev.doneMsg => simpa [List.count_cons] using ih
    | Ev.copy s' d' =>
      simp only [List.singleton_append, List.count_cons, beq_iff_eq]
      have hite : (if Ev.copy s' d' = Ev.copy src d then (1 : Nat) else 0) ≤
          (if d' = d then (1 : Nat) else 0) := by
        split_ifs with h1 h2
        · exact le_refl 1
        · cases h1
          exact absurd rfl h2
        · exact Nat.zero_le 1
        · exact le_refl 0
      exact Nat.add_le_add ih hite

/-- A loop that ran out of responses mid-decision still holds a non-empty
pool. -/
lemma innerLoop_blocked_pool_ne (single : Bool) (src : String) :
    ∀ (pool : List String) (rs : List (Option (List String))),
      (innerLoop single src pool rs).res = .blocked →
      (innerLoop single src pool rs).pool ≠ [] := by
  intro pool rs
  induction pool, rs using innerLoop.induct single src with
  | case1 rs => simp [innerLoop_pool_nil]
  | case2 pool hp => simp [innerLoop_blocked single src hp, hp]
  | case3 pool hp rs' hs =>
    subst hs
    simp [innerLoop_none_single src hp]
  | case4 pool hp rs' hs =>
    rw [Bool.not_eq_true] at hs
    subst hs
    simp [innerLoop_none_multi src hp]
  | case5 pool hp rs' hs =>
    subst hs
    simp [innerLoop_empty_single src hp]
  | case6 pool hp rs' hs ih =>
    rw [Bool.not_eq_true] at hs
    subst hs
    simpa [innerLoop_empty_multi src hp] using ih
  | case7 pool hp rs' l hl hq =>
    simp [innerLoop_quit single src hp hl hq]
  | case8 pool hp rs' l hl hq cevs poolErr heq =>
    simp [innerLoop_err single src hp hl hq heq]
  | case9 pool hp rs' l hl hq cevs pool' heq hs =>
    subst hs
    simp [innerLoop_ok_single src hp hl hq heq]
  | case10 pool hp rs' l hl hq cevs pool' heq hs ih =>
    rw [Bool.not_eq_true] at hs
    subst hs
    simpa [innerLoop_ok_multi src hp hl hq heq] using ih

/-- Resuming a loop that blocked on an exhausted response list: feeding
more responses appends the continuation's behavior, starting from the pool
the blocked loop had reached — the dual of the loop being suspended at the
prompt. -/
lemma innerLoop_append_of_blocked (single : Bool) (src : String) :
    ∀ (pool : List String) (rs : List (Option (List String))),
      (innerLoop single src pool rs).res = .blocked →
      ∀ (tail : List (Option (List String))),
        (innerLoop single src pool (rs ++ tail)).evs =
          (innerLoop single src pool rs).evs ++
            (innerLoop single src (innerLoop single src pool rs).pool tail).evs ∧
        (innerLoop single src pool (rs ++ tail)).rest =
          (innerLoop single src (innerLoop single src pool rs).pool tail).rest ∧
        (innerLoop single src pool (rs ++ tail)).res =
          (innerLoop single src (innerLoop single src pool rs).pool tail).res ∧
        (innerLoop single src pool (rs ++ tail)).pool =
          (innerLoop single src (innerLoop single src pool rs).pool tail).pool := by
  intro pool rs
  induction pool, rs using innerLoop.induct single src with
  | case1 rs => simp [innerLoop_pool_nil]
  | case2 pool hp =>
    intro _ tail
    simp [innerLoop_blocked single src hp]
  | case3 pool hp rs' hs =>
    subst hs
    simp [innerLoop_none_single src hp]
  | case4 pool hp rs' hs =>
    rw [Bool.not_eq_true] at hs
    subst hs
    simp [innerLoop_none_multi src hp]
  | case5 pool hp rs' hs =>
    subst hs
    simp [innerLoop_empty_single src hp]
  | case6 pool hp rs' hs ih =>
    rw [Bool.not_eq_true] at hs
    subst hs
    intro hb tail
    rw [innerLoop_empty_multi src hp] at hb
    simp only at hb
    obtain ⟨he, hr, hres, hpo⟩ := ih hb tail
    rw [List.cons_append, innerLoop_empty_multi src hp,
      innerLoop_empty_multi src hp]
    simp [he, hr, hres, hpo, List.append_assoc]
  | case7 pool hp rs' l hl hq =>
    simp [innerLoop_quit single src hp hl hq]
  | case8 pool hp rs' l hl hq cevs poolErr heq =>
    simp [innerLoop_err single src hp hl hq heq]
  | case9 pool hp rs' l hl hq cevs pool' heq hs =>
    subst hs
    simp [innerLoop_ok_single src hp hl hq heq]
  | case10 pool hp rs' l hl hq cevs pool' heq hs ih =>
    rw [Bool.not_eq_true] at hs
    subst hs
    intro hb tail
    rw [innerLoop_ok_multi src hp hl hq heq] at hb
    simp only at hb
    obtain ⟨he, hr, hres, hpo⟩ := ih hb tail
    rw [List.cons_append, innerLoop_ok_multi src hp hl hq heq,
      innerLoop_ok_multi src hp hl hq heq]
    simp [he, hr, hres, hpo, List.append_assoc]

lemma countPrompts_copies (src : String) (l pool : List String) :
    countPrompts (applyChoices src l pool).events = 0 := by
  rw [countPrompts, List.countP_eq_zero]
  intro ev hev
  obtain ⟨d, rfl⟩ := applyChoices_events_copy src l pool ev hev
  simp

lemma pathJoin_length (d name : String) :
    (pathJoin d name).length = d.length + 1 + name.length := by
  have h1 : ("/" : String).length = 1 := by decide
  simp only [pathJoin, String.length_append, h1]

/-- A strict descendant directory has a strictly longer path than its
ancestor, since each `os.path.join` step appends a separator and a name. -/
lemma isDescDir_lt_length {c : String} {es : List Entry} {p : String}
    (h : IsDescDir c es p) : c.length < p.length := by
  induction h with
  | here current entries name children hm =>
    rw [pathJoin_length]
    omega
  | deeper current entries name children p hm hd ih =>
    have := pathJoin_length current name
    omega

lemma isDescDir_cons_of (current : String) (e : Entry) (rest : List Entry)
    (p : String) (h : IsDescDir current rest p) :
    IsDescDir current (e :: rest) p := by
  cases h with
  | here _ _ name children hm =>
    exact IsDescDir.here _ _ _ _ (List.mem_cons_of_mem _ hm)
  | deeper _ _ name children _ hm hd =>
    exact IsDescDir.deeper _ _ _ _ _ (List.mem_cons_of_mem _ hm) hd

lemma isDescDir_cons_iff (current : String) (e : Entry) (rest : List Entry)
    (p : String) :
    IsDescDir current (e :: rest) p ↔
      (∃ name children, e = Entry.dir name children ∧
        (p = pathJoin current name ∨
          IsDescDir (pathJoin current name) children p)) ∨
      IsDescDir current rest p := by
  constructor
  · intro h
    cases h with
    | here _ _ name children hm =>
      rcases List.mem_cons.mp hm with heq | hm2
      · exact Or.inl ⟨name, children, heq.symm, Or.inl rfl⟩
      · exact Or.inr (IsDescDir.here _ _ _ _ hm2)
    | deeper _ _ name children _ hm hdeep =>
      rcases List.mem_cons.mp hm with heq | hm2
      · exact Or.inl ⟨name, children, heq.symm, Or.inr hdeep⟩
      · exact Or.inr (IsDescDir.deeper _ _ _ _ _ hm2 hdeep)
  · rintro (⟨name, children, rfl, hcase⟩ | hrest)
    · rcases hcase with hj | hdeep
      · rw [hj]
        exact IsDescDir.here _ _ _ _ (List.mem_cons_self _ _)
      · exact IsDescDir.deeper _ _ _ _ _ (List.mem_cons_self _ _) hdeep
    · exact isDescDir_cons_of current e rest p hrest

/-- The set `gather_directories` returns is exactly the strict descendant
directories at every depth. -/
lemma gather_directories_mem :
    ∀ (current : String) (entries : List Entry) (p : String),
      p ∈ gather_directories current entries ↔ IsDescDir current entries p := by
  intro current entries
  induction current, entries using gather_directories.induct with
  | case1 current =>
    intro p
    simp only [gather_directories, List.not_mem_nil, false_iff]
    intro h
    cases h with
    | here _ _ name children hm => exact absurd hm (List.not_mem_nil _)
    | deeper _ _ name children _ hm hd => exact absurd hm (List.not_mem_nil _)
  | case2 current name rest ih =>
    intro p
    rw [gather_directories, ih p, isDescDir_cons_iff]
    constructor
    · exact Or.inr
    · rintro (⟨n2, ch2, heq, _⟩ | h)
      · exact absurd heq (by simp)
      · exact h
  | case3 current name children rest ih1 ih2 =>
    intro p
    rw [gather_directories, isDescDir_cons_iff]
    simp only [List.mem_append, List.mem_singleton]
    constructor
    · rintro ((hdeep | hjoin) | hrest)
      · exact Or.inl ⟨name, children, rfl, Or.inr ((ih1 p).mp hdeep)⟩
      · exact Or.inl ⟨name, children, rfl, Or.inl hjoin⟩
      · exact Or.inr ((ih2 p).mp hrest)
    · rintro (⟨n2, ch2, heq, hcase⟩ | hrest)
      · injection heq with hn hch
        subst hn
        subst hch
        rcases hcase with hj | hdeep
        · exact Or.inl (Or.inr hj)
        · exact Or.inl (Or.inl ((ih1 p).mpr hdeep))
      · exact Or.inr ((ih2 p).mpr hrest)

/-! ## Claims -/

/-- C1 (counterexample): with target directory `t/d1` and a single prompt
response selecting `t/d1` together with `QUIT_CHOICE` — the directory label
appearing earlier than the stop label in the response's processing order —
the run terminates immediately but the copy of `s/f` into `t/d1` is not
applied: `sort_files` checks `QUIT_CHOICE in choice` before the copy loop,
so no copy from a stop-carrying response is ever performed.  This refutes
the claim that copies for labels earlier than STOP_LABEL in the response
have been applied. -/
theorem C1_counterexample :
    (sort_files false false 1 ["t/d1"] ["s/f"]
        [some ["t/d1", QUIT_CHOICE]]).outcome = RunEnd.quitted ∧
    Ev.copy "s/f" "t/d1" ∉
      (sort_files false false 1 ["t/d1"] ["s/f"]
        [some ["t/d1", QUIT_CHOICE]]).evs := by
  decide

/-- C1 (amended): a prompt response containing STOP_LABEL together with one
or more directory labels still triggers immediate global termination, and no
copy from that response is applied (the stop check precedes the copy loop);
copies applied in earlier prompt responses remain in effect (no rollback).
Stated for a loop suspended (blocked) after the earlier responses `rs`:
feeding the stop-carrying response quits at once, the trace grows by exactly
the prompt and the quit message — earlier events, including earlier copies,
are untouched — and the engine's outcome is `quitted`. -/
theorem C1_amended_stop_discards_response (single : Bool) (src : String)
    (pool : List String) (rs : List (Option (List String)))
    (l : List String) (rest : List (Option (List String)))
    (hb : (innerLoop single src pool rs).res = .blocked)
    (hl : l ≠ []) (hq : QUIT_CHOICE ∈ l) :
    (innerLoop single src pool (rs ++ some l :: rest)).res = .quit ∧
    (innerLoop single src pool (rs ++ some l :: rest)).evs =
      (innerLoop single src pool rs).evs ++
        [Ev.prompt (innerLoop single src pool rs).pool, Ev.quitMsg] ∧
    (innerLoop single src pool (rs ++ some l :: rest)).rest = rest ∧
    (∀ (delete : Bool) (total : Nat) (dlist : List String) (fs : List String),
      pool = dlist ++ [QUIT_CHOICE] →
      (sort_files delete single total dlist (src :: fs)
        (rs ++ some l :: rest)).outcome = .quitted) := by
  have hpne := innerLoop_blocked_pool_ne single src pool rs hb
  obtain ⟨he, hr, hres, hpo⟩ :=
    innerLoop_append_of_blocked single src pool rs hb (some l :: rest)
  rw [innerLoop_quit single src hpne hl hq] at he hr hres
  simp only at he hr hres
  refine ⟨hres, he, hr, ?_⟩
  intro delete total dlist fs hpool
  subst hpool
  rw [sort_files_quit delete single total dlist src fs _ hres]

/-- C1 (witness for the amended claim): one directory already copied in an
earlier response, then a response pairing the other directory with the stop
label: the loop quits at once and the trace keeps the earlier copy while
gaining only the prompt and quit message. -/
theorem C1_amended_witness :
    (innerLoop false "s/f" ["t/d1", "t/d2", QUIT_CHOICE]
        ([some ["t/d1"]] ++ some ["t/d2", QUIT_CHOICE] :: [])).res
      = InnerRes.quit ∧
    (innerLoop false "s/f" ["t/d1", "t/d2", QUIT_CHOICE]
        ([some ["t/d1"]] ++ some ["t/d2", QUIT_CHOICE] :: [])).evs =
      (innerLoop false "s/f" ["t/d1", "t/d2", QUIT_CHOICE]
          [some ["t/d1"]]).evs ++
        [Ev.prompt (innerLoop false "s/f" ["t/d1", "t/d2", QUIT_CHOICE]
            [some ["t/d1"]]).pool, Ev.quitMsg] := by
  have h := C1_amended_stop_discards_response false "s/f"
    ["t/d1", "t/d2", QUIT_CHOICE] [some ["t/d1"]] ["t/d2", QUIT_CHOICE] []
    (by decide) (by decide) (by decide)
  exact ⟨h.1, h.2.1⟩

/-- C2: if a prompt response containing STOP_LABEL is returned while `f` is
current (its decision loop ends with the quit result), the engine returns
immediately with outcome `quitted` and no remaining file is ever played,
copied anywhere, or deleted. -/
theorem C2_stop_halts_remaining (delete single : Bool) (total : Nat)
    (dlist : List String) (f : String) (fs : List String)
    (rs : List (Option (List String))) (hf : f ∉ fs)
    (hq : (innerLoop single f (dlist ++ [QUIT_CHOICE]) rs).res = .quit) :
    (sort_files delete single total dlist (f :: fs) rs).outcome = .quitted ∧
    ∀ g ∈ fs,
      Ev.play g ∉ (sort_files delete single total dlist (f :: fs) rs).evs ∧
      (∀ d, Ev.copy g d ∉
        (sort_files delete single total dlist (f :: fs) rs).evs) ∧
      Ev.remove g ∉ (sort_files delete single total dlist (f :: fs) rs).evs := by
  rw [sort_files_quit delete single total dlist f fs rs hq]
  refine ⟨rfl, ?_⟩
  intro g hg
  have hgf : g ≠ f := fun h => hf (h ▸ hg)
  refine ⟨?_, ?_, ?_⟩
  · intro hmem
    rcases List.mem_append.mp hmem with h | h
    · simp [hgf] at h
    · exact innerLoop_no_play single f _ rs g h
  · intro d hmem
    rcases List.mem_append.mp hmem with h | h
    · simp at h
    · exact hgf (innerLoop_copy_src single f _ rs g d h)
  · intro hmem
    rcases List.mem_append.mp hmem with h | h
    · simp at h
    · exact innerLoop_no_remove single f _ rs g h

/-- C2 (witness): files a, b with the quit response while a is current —
outcome is `quitted` and b is never played. -/
theorem C2_witness :
    (sort_files false false 2 ["t/d"] ["a", "b"]
        [some [QUIT_CHOICE]]).outcome = RunEnd.quitted ∧
    Ev.play "b" ∉
      (sort_files false false 2 ["t/d"] ["a", "b"]
        [some [QUIT_CHOICE]]).evs := by
  have h := C2_stop_halts_remaining false false 2 ["t/d"] "a" ["b"]
    [some [QUIT_CHOICE]] (by decide) (by decide)
  exact ⟨h.1, (h.2 "b" (by decide)).1⟩

/-- C3: within one file's decision loop (no crash, pool built without
duplicates), every directory is copied to at most once — a consumed label is
removed from the pool and the engine never copies the same (file, directory)
pair twice — and every copied label is absent from the surviving pool. -/
theorem C3_no_double_copy (single : Bool) (src : String) (dlist : List String)
    (rs : List (Option (List String)))
    (hnd : (dlist ++ [QUIT_CHOICE]).Nodup)
    (hnc : (innerLoop single src (dlist ++ [QUIT_CHOICE]) rs).res ≠ .crash) :
    (∀ d, ((innerLoop single src (dlist ++ [QUIT_CHOICE]) rs).evs).count
        (Ev.copy src d) ≤ 1) ∧
    ∀ d ∈ copyTargets (innerLoop single src (dlist ++ [QUIT_CHOICE]) rs).evs,
      d ∉ (innerLoop single src (dlist ++ [QUIT_CHOICE]) rs).pool := by
  obtain ⟨hnodup, hsub, hpnd, hiff⟩ :=
    innerLoop_copy_spec single src (dlist ++ [QUIT_CHOICE]) rs hnd hnc
  constructor
  · intro d
    exact le_trans
      (count_copy_le_copyTargets src d
        (innerLoop single src (dlist ++ [QUIT_CHOICE]) rs).evs)
      (List.nodup_iff_count_le_one.mp hnodup d)
  · intro d hd hmem
    exact ((hiff d).mp hmem).2 hd

/-- C3 (witness): two rounds copying d1 then d2 — d1 is copied once. -/
theorem C3_witness :
    ((innerLoop false "s" (["d1", "d2"] ++ [QUIT_CHOICE])
        [some ["d1"], some ["d2"], none]).evs).count (Ev.copy "s" "d1") ≤ 1 :=
  (C3_no_double_copy false "s" ["d1", "d2"] [some ["d1"], some ["d2"], none]
    (by decide) (by decide)).1 "d1"

/-- C4: with the single-choice option set, a file's decision loop performs
exactly one prompt round — whatever the round's outcome (cancellation, empty
selection, or any valid selection of directory labels, i.e. one not carrying
the stop label) and however many candidates remain — and the engine then
advances to the next file with the remaining responses. -/
theorem C4_single_one_round (delete : Bool) (total : Nat)
    (dlist : List String) (f : String) (fs : List String)
    (r : Option (List String)) (rs : List (Option (List String)))
    (hval : ∀ l, r = some l →
      QUIT_CHOICE ∉ l ∧ l.Nodup ∧ ∀ x ∈ l, x ∈ dlist) :
    (innerLoop true f (dlist ++ [QUIT_CHOICE]) (r :: rs)).res = .brk ∧
    (innerLoop true f (dlist ++ [QUIT_CHOICE]) (r :: rs)).rest = rs ∧
    countPrompts (innerLoop true f (dlist ++ [QUIT_CHOICE]) (r :: rs)).evs
      = 1 ∧
    sort_files delete true total dlist (f :: fs) (r :: rs) =
      ⟨[Ev.play f, Ev.progress (fs.length + 1) total]
          ++ (innerLoop true f (dlist ++ [QUIT_CHOICE]) (r :: rs)).evs
          ++ (if delete then [Ev.remove f] else [])
          ++ (sort_files delete true total dlist fs rs).evs,
        (sort_files delete true total dlist fs rs).outcome⟩ := by
  have hp : dlist ++ [QUIT_CHOICE] ≠ [] := by simp
  have hmain :
      (innerLoop true f (dlist ++ [QUIT_CHOICE]) (r :: rs)).res = .brk ∧
      (innerLoop true f (dlist ++ [QUIT_CHOICE]) (r :: rs)).rest = rs ∧
      countPrompts (innerLoop true f (dlist ++ [QUIT_CHOICE]) (r :: rs)).evs
        = 1 := by
    rcases r with _ | l
    · rw [innerLoop_none_single f hp]
      refine ⟨rfl, rfl, ?_⟩
      simp [countPrompts, List.countP_cons]
    · obtain ⟨hqc, hlnd, hsub⟩ := hval l rfl
      by_cases hl : l = []
      · subst hl
        rw [innerLoop_empty_single f hp]
        refine ⟨rfl, rfl, ?_⟩
        simp [countPrompts, List.countP_cons]
      · obtain ⟨cevs, pool2, heq⟩ := applyChoices_ok_of_valid f l
          (dlist ++ [QUIT_CHOICE]) hlnd
          (fun x hx => List.mem_append.mpr (Or.inl (hsub x hx)))
        rw [innerLoop_ok_single f hp hl hqc heq]
        refine ⟨rfl, rfl, ?_⟩
        have h0 : countPrompts cevs = 0 := by
          have hcp := countPrompts_copies f l (dlist ++ [QUIT_CHOICE])
          rw [heq] at hcp
          simpa [CopyOut.events] using hcp
        simp only [countPrompts, List.countP_cons] at h0 ⊢
        simp [h0]
  refine ⟨hmain.1, hmain.2.1, hmain.2.2, ?_⟩
  rw [sort_files_advance delete true total dlist f fs (r :: rs)
    (Or.inr (Or.inl hmain.1)), hmain.2.1]

/-- C4 (witness): single-choice, a round selecting both directories — one
prompt round, loop breaks. -/
theorem C4_witness :
    (innerLoop true "a" (["d1", "d2"] ++ [QUIT_CHOICE])
        (some ["d1", "d2"] :: [none])).res = InnerRes.brk ∧
    countPrompts (innerLoop true "a" (["d1", "d2"] ++ [QUIT_CHOICE])
        (some ["d1", "d2"] :: [none])).evs = 1 := by
  have h := C4_single_one_round false 2 ["d1", "d2"] "a" ["b"]
    (some ["d1", "d2"]) [none]
    (by
      intro l hl
      injection hl with hl
      subst hl
      exact ⟨by decide, by decide, by decide⟩)
  exact ⟨h.1, h.2.2.1⟩

/-- C5: when a file's decision loop completes normally (cancellation or the
single-choice break, the stop label never selected), the source file is
removed afterwards exactly when the delete option is set: with
`delete=true` the trace deletes it, with `delete=false` the trace never
does. -/
theorem C5_delete_flag (single : Bool) (total : Nat) (dlist : List String)
    (f : String) (fs : List String) (rs : List (Option (List String)))
    (hres : (innerLoop single f (dlist ++ [QUIT_CHOICE]) rs).res = .cancel ∨
      (innerLoop single f (dlist ++ [QUIT_CHOICE]) rs).res = .brk) :
    Ev.remove f ∈ (sort_files true single total dlist (f :: fs) rs).evs ∧
    Ev.remove f ∉ (sort_files false single total dlist (f :: fs) rs).evs := by
  constructor
  · rw [sort_files_advance true single total dlist f fs rs
      (hres.imp id Or.inl)]
    simp [List.mem_append]
  · exact sort_files_no_remove single total dlist (f :: fs) rs f

/-- C5 (witness): cancelling at once — with delete the file is removed, and
without delete it is not. -/
theorem C5_witness :
    Ev.remove "a" ∈ (sort_files true false 1 ["d"] ["a"] [none]).evs ∧
    Ev.remove "a" ∉ (sort_files false false 1 ["d"] ["a"] [none]).evs :=
  C5_delete_flag false 1 ["d"] "a" [] [none] (Or.inl (by decide))

/-- C6 (code bug): when the source is not a directory, `main` prints the
"aborting" report but — lacking a `return` after the check — still enters
`gather_files`, where `os.listdir` raises; the run does not abort before
scanning begins, contradicting the claim that neither scanner is entered. -/
theorem C6_scanner_entered_despite_report (isdirT : Bool)
    (flist dlist : List String) :
    MainEv.sourceNotDirMsg ∈ (mainRun false isdirT flist dlist).1 ∧
    MainEv.gatherFilesEntered ∈ (mainRun false isdirT flist dlist).1 ∧
    (mainRun false isdirT flist dlist).2 = false := by
  cases isdirT <;> simp [mainRun]

/-- C7: non-recursive `gather_files` returns exactly the files directly
under the root whose `os.path.splitext` extension, lowercased, is in the
extension whitelist — files of descendant directories are not included. -/
theorem C7_scan_files_nonrecursive (root : String) (entries : List Entry)
    (p : String) :
    p ∈ gather_files false root entries ↔
      ∃ name, Entry.file name ∈ entries ∧ p = pathJoin root name ∧
        (splitextExt name).toLower ∈ EXT_WHITELIST := by
  induction entries with
  | nil => simp [gather_files]
  | cons e rest ih =>
    cases e with
    | file name =>
      rw [gather_files]
      constructor
      · intro hmem
        rcases List.mem_append.mp hmem with hmem | hmem
        · by_cases hcond : (splitextExt name).toLower ∈ EXT_WHITELIST
          · rw [if_pos hcond] at hmem
            rw [List.mem_singleton] at hmem
            exact ⟨name, List.mem_cons_self _ _, hmem, hcond⟩
          · rw [if_neg hcond] at hmem
            exact absurd hmem (List.not_mem_nil p)
        · obtain ⟨n2, hn2, hp2, hc2⟩ := ih.mp hmem
          exact ⟨n2, List.mem_cons_of_mem _ hn2, hp2, hc2⟩
      · rintro ⟨n2, hn2, hp2, hc2⟩
        rcases List.mem_cons.mp hn2 with heq | hn2
        · injection heq with hname
          subst hname
          subst hp2
          refine List.mem_append.mpr (Or.inl ?_)
          rw [if_pos hc2]
          exact List.mem_singleton.mpr rfl
        · exact List.mem_append.mpr (Or.inr (ih.mpr ⟨n2, hn2, hp2, hc2⟩))
    | dir name children =>
      rw [gather_files, if_neg Bool.false_ne_true, List.nil_append, ih]
      constructor
      · rintro ⟨n2, hn2, hp2, hc2⟩
        exact ⟨n2, List.mem_cons_of_mem _ hn2, hp2, hc2⟩
      · rintro ⟨n2, hn2, hp2, hc2⟩
        rcases List.mem_cons.mp hn2 with heq | hn2
        · exact absurd heq (by simp)
        · exact ⟨n2, hn2, hp2, hc2⟩

/-- C8: `gather_directories` returns exactly the strict descendant
directories of the root at every depth, and never the root itself (every
result path is strictly longer than the root's); the function takes no
recursion flag at all. -/
theorem C8_scan_directories_strict_descendants (root : String)
    (entries : List Entry) :
    (∀ p, p ∈ gather_directories root entries ↔ IsDescDir root entries p) ∧
    root ∉ gather_directories root entries := by
  refine ⟨gather_directories_mem root entries, fun hmem => ?_⟩
  have hlt :=
    isDescDir_lt_length ((gather_directories_mem root entries root).mp hmem)
  omega

/-- C9: even with the delete option set, selecting the stop sentinel while a
file is current makes the engine return before the per-file delete step:
the current file is never deleted. -/
theorem C9_quit_skips_delete (single : Bool) (total : Nat)
    (dlist : List String) (f : String) (fs : List String)
    (rs : List (Option (List String)))
    (hq : (innerLoop single f (dlist ++ [QUIT_CHOICE]) rs).res = .quit) :
    (sort_files true single total dlist (f :: fs) rs).outcome = .quitted ∧
    Ev.remove f ∉ (sort_files true single total dlist (f :: fs) rs).evs := by
  rw [sort_files_quit true single total dlist f fs rs hq]
  refine ⟨rfl, ?_⟩
  intro hmem
  rcases List.mem_append.mp hmem with h | h
  · simp at h
  · exact innerLoop_no_remove single f _ rs f h

/-- C9 (witness): delete set, quit selected while `a` is current — outcome
quitted and `a` is not removed. -/
theorem C9_witness :
    (sort_files true false 1 ["d"] ["a"] [some [QUIT_CHOICE]]).outcome
        = RunEnd.quitted ∧
    Ev.remove "a" ∉
      (sort_files true false 1 ["d"] ["a"] [some [QUIT_CHOICE]]).evs :=
  C9_quit_skips_delete false 1 ["d"] "a" [] [some [QUIT_CHOICE]] (by decide)

/-- C10: the candidate pool, built as the directory labels plus the quit
sentinel, always retains the sentinel (only copied-to labels are removed and
the sentinel is never copied to), so the pool is never empty and the inner
loop's pool-non-empty condition is never the reason it terminates. -/
theorem C10_pool_never_empty (single : Bool) (src : String)
    (dlist : List String) (rs : List (Option (List String))) :
    QUIT_CHOICE ∈ (innerLoop single src (dlist ++ [QUIT_CHOICE]) rs).pool ∧
    (innerLoop single src (dlist ++ [QUIT_CHOICE]) rs).pool ≠ [] ∧
    (innerLoop single src (dlist ++ [QUIT_CHOICE]) rs).res ≠ .poolEmpty := by
  have hq : QUIT_CHOICE ∈ dlist ++ [QUIT_CHOICE] := by simp
  obtain ⟨h1, h2⟩ :=
    innerLoop_quit_mem single src (dlist ++ [QUIT_CHOICE]) rs hq
  exact ⟨h1, List.ne_nil_of_mem h1, h2⟩

end Fuzzyfiler
